import Mathlib

/-!
Verification of the dnsmasq log parser (`parse-dns.go`).

Strings are modelled as `List Char` (Go strings are byte/rune sequences;
the log data is ASCII).  Machine `int64` timestamps are modelled as `Int`
(the program only compares and copies timestamps, so no overflow wrap is
reachable).  Fallible operations return `Option`; Go's `("", 0)` "no
match" sentinel of `extractDomainAndTimestamp` is modelled as `none`
(on success the returned domain is a whitespace-free nonempty token, so
the sentinel is unambiguous).
-/

namespace DnsParse

/-- The per-domain record of `parse-dns.go` (`type domainTimes struct`). -/
structure domainTimes where
  FirstSeen : Int
  LastSeen : Int
deriving DecidableEq, Repr

/-! ## Go `time.Parse` with layout `"Jan _2 15:04:05"`

`extractDomainAndTimestamp` calls `time.Parse("Jan _2 15:04:05", line[:15])`.
The following definitions embed the Go standard library's behaviour for
exactly this layout: case-insensitive three-letter month lookup, a literal
space, an optional-space-padded 1-2 digit day (`_2`), a literal space, a
1-2 digit hour checked `< 24`, `:`, a fixed 2-digit minute `< 60`, `:`, a
fixed 2-digit second `< 60`, an optional fractional-second tail, no
leftover input, and a day-of-month range check.  The layout has no year,
so Go fills in year 0 (a leap year in the proleptic Gregorian calendar
used by package `time`). -/

/-- Go `time.match` on one byte: equal, or equal ASCII letters ignoring case. -/
def goMatchChar (c1 c2 : Char) : Bool :=
  c1 == c2 ||
    (let l1 := c1.toNat ||| 32
     let l2 := c2.toNat ||| 32
     l1 == l2 && decide (97 ≤ l1) && decide (l1 ≤ 122))

/-- Does the value (second list) start with the name (first list), compared
by `goMatchChar`?  This is Go `time.lookup`'s prefix test. -/
def goMatchList : List Char → List Char → Bool
  | [], _ => true
  | _ :: _, [] => false
  | n :: ns, v :: vs => goMatchChar v n && goMatchList ns vs

/-- Go `time.shortMonthNames`. -/
def monthNames : List (List Char) :=
  ["Jan", "Feb", "Mar", "Apr", "May", "Jun",
   "Jul", "Aug", "Sep", "Oct", "Nov", "Dec"].map String.toList

/-- Go `time.lookup` over the month-name table: first matching name wins;
returns the 1-based month and the rest of the value. -/
def lookupMonthAux : Nat → List (List Char) → List Char → Option (Nat × List Char)
  | _, [], _ => none
  | i, n :: ns, v =>
    if goMatchList n v then some (i + 1, v.drop n.length) else lookupMonthAux (i + 1) ns v

def lookupMonth (v : List Char) : Option (Nat × List Char) :=
  lookupMonthAux 0 monthNames v

def digitVal (c : Char) : Nat := c.toNat - 48

/-- Go `time.getnum`: one or two decimal digits (`fixed = true` demands
exactly two). -/
def getnum (fixed : Bool) : List Char → Option (Nat × List Char)
  | [] => none
  | c :: rest =>
    if c.isDigit then
      match rest with
      | d :: rest2 =>
        if d.isDigit then some (10 * digitVal c + digitVal d, rest2)
        else if fixed then none else some (digitVal c, rest)
      | [] => if fixed then none else some (digitVal c, [])
    else none

/-- Consume one expected literal layout character. -/
def expect (c : Char) : List Char → Option (List Char)
  | x :: rest => if x = c then some rest else none
  | [] => none

/-- The `_2` layout element first skips a single leading space if present. -/
def skipSpaceOne : List Char → List Char
  | ' ' :: rest => rest
  | v => v

/-- Go `Parse`'s special case after a fixed-width second: an unasked-for
fractional second (`.` or `,` followed by digits) is consumed and dropped. -/
def skipFrac : List Char → List Char
  | c :: d :: rest =>
    if (c == '.' || c == ',') && d.isDigit then rest.dropWhile Char.isDigit
    else c :: d :: rest
  | v => v

/-- Go `time.daysIn` for year 0 (leap year: February has 29 days). -/
def daysInMonth0 (m : Nat) : Nat :=
  match m with
  | 1 => 31 | 2 => 29 | 3 => 31 | 4 => 30 | 5 => 31 | 6 => 30
  | 7 => 31 | 8 => 31 | 9 => 30 | 10 => 31 | 11 => 30 | 12 => 31
  | _ => 0

/-- The components Go's `Parse` extracts from a `"Jan _2 15:04:05"` value. -/
structure GoTm where
  month : Nat
  day : Nat
  hour : Nat
  minute : Nat
  second : Nat
deriving DecidableEq, Repr

/-- Embedding of `time.Parse("Jan _2 15:04:05", v)`: `some` of the parsed
components on success, `none` on any parse or range error. -/
def parseGoTime15 (v : List Char) : Option GoTm := do
  let (month, r1) ← lookupMonth v
  let r2 ← expect ' ' r1
  let (day, r3) ← getnum false (skipSpaceOne r2)
  let r4 ← expect ' ' r3
  let (hour, r5) ← getnum false r4
  guard (hour < 24)
  let r6 ← expect ':' r5
  let (minute, r7) ← getnum true r6
  guard (minute < 60)
  let r8 ← expect ':' r7
  let (second, r9) ← getnum true r8
  guard (second < 60)
  guard (skipFrac r9 = [])
  guard (1 ≤ day ∧ day ≤ daysInMonth0 month)
  pure ⟨month, day, hour, minute, second⟩

/-- Cumulative days before month `m` in year 0 (a leap year). -/
def cumDays0 (m : Nat) : Nat :=
  match m with
  | 1 => 0 | 2 => 31 | 3 => 60 | 4 => 91 | 5 => 121 | 6 => 152
  | 7 => 182 | 8 => 213 | 9 => 244 | 10 => 274 | 11 => 305 | 12 => 335
  | _ => 0

/-- Unix seconds (Go `Time.Unix()`) of the parsed value: Go builds the time in year 0 of the
proleptic Gregorian calendar, UTC.  `719528` is the number of days from
0000-01-01 to the Unix epoch 1970-01-01, so the result is the (negative)
epoch-seconds value Go returns. -/
def goTimeUnix (t : GoTm) : Int :=
  (((cumDays0 t.month + (t.day - 1) : Nat) : Int) - 719528) * 86400
    + ((t.hour * 3600 + t.minute * 60 + t.second : Nat) : Int)

/-! ## Fields splitting and the `query[` marker search -/

/-- Go `unicode.IsSpace` (the exact rune set used by `strings.Fields`). -/
def goIsSpace (c : Char) : Bool :=
  c == ' ' || c == '\t' || c == '\n' || c == '\x0b' || c == '\x0c' || c == '\r' ||
  c == '\x85' || c == '\xa0' ||
  c.toNat == 0x1680 || (decide (0x2000 ≤ c.toNat) && decide (c.toNat ≤ 0x200a)) ||
  c.toNat == 0x2028 || c.toNat == 0x2029 || c.toNat == 0x202f ||
  c.toNat == 0x205f || c.toNat == 0x3000

def goFieldsAux : List Char → List Char → List (List Char)
  | [], acc => if acc = [] then [] else [acc.reverse]
  | c :: cs, acc =>
    if goIsSpace c then
      if acc = [] then goFieldsAux cs [] else acc.reverse :: goFieldsAux cs []
    else goFieldsAux cs (c :: acc)

/-- Go `strings.Fields`: maximal runs of non-whitespace characters. -/
def goFields (s : List Char) : List (List Char) :=
  goFieldsAux s []

/-- Go `strings.HasPrefix(part, "query[")`. -/
def isPrefixQuery (p : List Char) : Bool :=
  List.isPrefixOf "query[".toList p

/-- The loop over `strings.Fields(domainPart)`: return the token after the
first `query[`-prefixed token that has a successor (`i+1 < len(parts)`). -/
def findQueryDomain : List (List Char) → Option (List Char)
  | p :: q :: rest => if isPrefixQuery p then some q else findQueryDomain (q :: rest)
  | _ => none

/-- Embedding of `extractDomainAndTimestamp` from `parse-dns.go`: `none` models Go's
`("", 0)` no-match return. -/
def extractDomainAndTimestamp (line : List Char) : Option (List Char × Int) :=
  if line.length < 15 then none
  else
    match parseGoTime15 (line.take 15) with
    | none => none
    | some t =>
      match findQueryDomain (goFields (line.drop 15)) with
      | none => none
      | some d => some (d, goTimeUnix t)

/-! ## Domain key normalizer (`reverseDomainParts`) -/

/-- Go `strings.Split(domain, ".")`: it yields `[""]` on the empty string and
never yields an empty slice. -/
def splitOnDot : List Char → List (List Char)
  | [] => [[]]
  | c :: cs =>
    match splitOnDot cs with
    | [] => [[]]
    | p :: ps => if c = '.' then [] :: p :: ps else (c :: p) :: ps

/-- Go `strings.Join(parts, ".")`. -/
def joinDot : List (List Char) → List Char
  | [] => []
  | [p] => p
  | p :: q :: rest => p ++ '.' :: joinDot (q :: rest)

/-- The normalizer `reverseDomainParts` of `parse-dns.go`: split on `.`, reverse the
label sequence in place, rejoin with `.`. -/
def reverseDomainParts (domain : List Char) : List Char :=
  joinDot (splitOnDot domain).reverse

/-! ## Aggregator (the per-line update block of `main`) -/

/-- The body of `main`'s loop for one observed timestamp on one key:
`current := domainTimesMap[reversed]` (zero value `{0, 0}` when absent),
then the two conditional field updates of lines 51-56. -/
def observe (current : domainTimes) (timestamp : Int) : domainTimes :=
  let c1 :=
    if current.FirstSeen = 0 ∨ timestamp < current.FirstSeen then
      { current with FirstSeen := timestamp }
    else current
  if timestamp > c1.LastSeen then { c1 with LastSeen := timestamp } else c1

/-- The in-memory aggregate `domainTimesMap`: `some` marks a key present in
the Go map (lookups of absent keys yield the zero value `{0, 0}`). -/
def Agg : Type := List Char → Option domainTimes

/-- The map update of `main` for one extracted observation. -/
def updateAgg (m : Agg) (domain : List Char) (timestamp : Int) : Agg :=
  let reversed := reverseDomainParts domain
  fun k =>
    if k = reversed then some (observe ((m reversed).getD ⟨0, 0⟩) timestamp) else m k

/-- One iteration of `main`'s scan loop: lines whose extraction signals
no match leave the aggregate unchanged. -/
def processLine (m : Agg) (line : List Char) : Agg :=
  match extractDomainAndTimestamp line with
  | none => m
  | some (d, t) => updateAgg m d t

/-! ## Persistence merge layer (`saveDomainsToDatabase`)

The durable store is the SQLite `domains` table, modelled as a map from
the unique `domain` key to its record.  The per-row statement is the
source's upsert
`INSERT ... ON CONFLICT(domain) DO UPDATE SET first_seen = MIN(first_seen,
excluded.first_seen), last_seen = MAX(last_seen, excluded.last_seen)`. -/

def Store : Type := List Char → Option domainTimes

/-- MIN/MAX reconciliation of an existing row with an incoming record. -/
def combineRec (cur v : domainTimes) : domainTimes :=
  ⟨min cur.FirstSeen v.FirstSeen, max cur.LastSeen v.LastSeen⟩

/-- One execution of the prepared upsert statement on key `k`. -/
def upsert (S : Store) (k : List Char) (v : domainTimes) : Store :=
  fun k' =>
    if k' = k then
      some (match S k with
            | none => v
            | some cur => combineRec cur v)
    else S k'

/-- The effect of a completed merge transaction: the upsert executed once
per entry of the in-memory aggregate (Go map iteration: each key once,
in some order). -/
def mergeStore (S : Store) (A : List (List Char × domainTimes)) : Store :=
  A.foldl (fun s p => upsert s p.1 p.2) S

/-- The statement-execution loop inside the transaction.  `fail` is an
oracle for external `stmt.Exec` errors; on the first failure the loop
stops with `none` (the code calls `tx.Rollback()` and returns the error).
The `Store` threaded through is the transaction's tentative state, not yet
visible durably. -/
def runUpserts (fail : List Char → domainTimes → Bool) :
    Store → List (List Char × domainTimes) → Option Store
  | cur, [] => some cur
  | cur, (k, v) :: rest =>
    if fail k v then none else runUpserts fail (upsert cur k v) rest

/-- Embedding of `saveDomainsToDatabase`: the durable state after the call, paired with
the success flag.  SQL transaction semantics (`Begin`/`Rollback`/`Commit`
of `database/sql` over SQLite) are modelled as primitive: a rolled-back or
failed-commit transaction leaves the prior durable state `S`; only a
successful `Commit` publishes the tentative state.  `commitFail` is the
oracle for an external `tx.Commit()` error. -/
def saveDomainsToDatabase (fail : List Char → domainTimes → Bool) (commitFail : Bool)
    (S : Store) (A : List (List Char × domainTimes)) : Store × Bool :=
  match runUpserts fail S A with
  | none => (S, false)
  | some tentative => if commitFail then (S, false) else (tentative, true)

/-! ## Lemmas about the normalizer -/

theorem splitOnDot_cons_eq (c : Char) (cs : List Char) (p : List Char)
    (ps : List (List Char)) (h : splitOnDot cs = p :: ps) :
    splitOnDot (c :: cs) = if c = '.' then [] :: p :: ps else (c :: p) :: ps := by
  simp only [splitOnDot, h]

theorem splitOnDot_ne_nil : ∀ s, splitOnDot s ≠ []
  | [] => by simp [splitOnDot]
  | c :: cs => by
    cases h : splitOnDot cs with
    | nil => exact absurd h (splitOnDot_ne_nil cs)
    | cons p ps =>
      rw [splitOnDot_cons_eq c cs p ps h]
      split <;> simp

theorem joinDot_splitOnDot : ∀ s, joinDot (splitOnDot s) = s := by
  intro s
  induction s with
  | nil => rfl
  | cons c cs ih =>
    cases h : splitOnDot cs with
    | nil => exact absurd h (splitOnDot_ne_nil cs)
    | cons p ps =>
      rw [splitOnDot_cons_eq c cs p ps h]
      rw [h] at ih
      by_cases hc : c = '.'
      · subst hc
        simp only [if_pos rfl, joinDot, List.nil_append, ih]
      · rw [if_neg hc]
        cases ps with
        | nil => simpa [joinDot] using ih
        | cons q ps' => simpa [joinDot] using ih

theorem not_dot_mem_splitOnDot : ∀ s p, p ∈ splitOnDot s → '.' ∉ p := by
  intro s
  induction s with
  | nil =>
    intro p hp
    simp only [splitOnDot, List.mem_singleton] at hp
    simp [hp]
  | cons c cs ih =>
    intro p hp
    cases h : splitOnDot cs with
    | nil => exact absurd h (splitOnDot_ne_nil cs)
    | cons q qs =>
      rw [splitOnDot_cons_eq c cs q qs h] at hp
      by_cases hc : c = '.'
      · subst hc
        rw [if_pos rfl] at hp
        rcases List.mem_cons.1 hp with hp | hp
        · simp [hp]
        · exact ih p (h ▸ hp)
      · rw [if_neg hc] at hp
        rcases List.mem_cons.1 hp with hp | hp
        · subst hp
          intro hmem
          rcases List.mem_cons.1 hmem with h1 | h1
          · exact hc h1.symm
          · exact ih q (h ▸ List.mem_cons_self q qs) h1
        · exact ih p (h ▸ List.mem_cons_of_mem q hp)

theorem splitOnDot_no_dot : ∀ p, '.' ∉ p → splitOnDot p = [p] := by
  intro p
  induction p with
  | nil => intro _; rfl
  | cons c p' ih =>
    intro h
    have hc : c ≠ '.' := fun he => h (he ▸ List.mem_cons_self c p')
    have hp' : '.' ∉ p' := fun hm => h (List.mem_cons_of_mem c hm)
    rw [splitOnDot_cons_eq c p' p' [] (ih hp'), if_neg hc]

theorem splitOnDot_append_dot :
    ∀ p t, '.' ∉ p → splitOnDot (p ++ '.' :: t) = p :: splitOnDot t := by
  intro p
  induction p with
  | nil =>
    intro t _
    cases h : splitOnDot t with
    | nil => exact absurd h (splitOnDot_ne_nil t)
    | cons q qs =>
      rw [List.nil_append, splitOnDot_cons_eq '.' t q qs h, if_pos rfl, ← h]
  | cons c p' ih =>
    intro t h
    have hc : c ≠ '.' := fun he => h (he ▸ List.mem_cons_self c p')
    have hp' : '.' ∉ p' := fun hm => h (List.mem_cons_of_mem c hm)
    rw [List.cons_append, splitOnDot_cons_eq c _ p' (splitOnDot t) (ih t hp'), if_neg hc]

theorem splitOnDot_joinDot :
    ∀ l, l ≠ [] → (∀ p ∈ l, '.' ∉ p) → splitOnDot (joinDot l) = l := by
  intro l
  induction l with
  | nil => intro h; exact absurd rfl h
  | cons p l' ih =>
    intro _ hmem
    cases l' with
    | nil =>
      simp only [joinDot]
      exact splitOnDot_no_dot p (hmem p (List.mem_cons_self p []))
    | cons q l'' =>
      simp only [joinDot]
      rw [splitOnDot_append_dot p _ (hmem p (List.mem_cons_self p (q :: l'')))]
      rw [ih (by simp) (fun r hr => hmem r (List.mem_cons_of_mem p hr))]

/-- C7: the Domain Key Normalizer is total over every string (it is a Lean
function on arbitrary character lists), maps the empty string to the empty
string, and reversing the label sequence twice returns the original
domain, so normalization loses no information. -/
theorem reverseDomainParts_involutive :
    (∀ s : List Char, reverseDomainParts (reverseDomainParts s) = s)
    ∧ reverseDomainParts [] = [] := by
  constructor
  · intro s
    unfold reverseDomainParts
    have hne : (splitOnDot s).reverse ≠ [] := by
      intro h
      exact splitOnDot_ne_nil s (List.reverse_eq_nil_iff.1 h)
    have hmem : ∀ p ∈ (splitOnDot s).reverse, '.' ∉ p := by
      intro p hp
      exact not_dot_mem_splitOnDot s p (List.mem_reverse.1 hp)
    rw [splitOnDot_joinDot _ hne hmem, List.reverse_reverse]
    exact joinDot_splitOnDot s
  · rfl

/-! ## Lemmas about the aggregator -/

theorem foldl_min_le_init : ∀ (ts : List Int) (a : Int), List.foldl min a ts ≤ a := by
  intro ts
  induction ts with
  | nil => intro a; exact le_refl a
  | cons t ts ih =>
    intro a
    exact le_trans (ih (min a t)) (min_le_left a t)

theorem foldl_min_le_mem :
    ∀ (ts : List Int) (a x : Int), x ∈ ts → List.foldl min a ts ≤ x := by
  intro ts
  induction ts with
  | nil => intro a x hx; exact absurd hx (List.not_mem_nil x)
  | cons t ts ih =>
    intro a x hx
    rcases List.mem_cons.1 hx with hx | hx
    · subst hx
      exact le_trans (foldl_min_le_init ts (min a x)) (min_le_right a x)
    · exact ih (min a t) x hx

theorem foldl_min_mem :
    ∀ (ts : List Int) (a : Int), List.foldl min a ts = a ∨ List.foldl min a ts ∈ ts := by
  intro ts
  induction ts with
  | nil => intro a; exact Or.inl rfl
  | cons t ts ih =>
    intro a
    rcases ih (min a t) with h | h
    · rcases min_choice a t with hm | hm
      · exact Or.inl (by rw [List.foldl_cons, h, hm])
      · exact Or.inr (by rw [List.foldl_cons, h, hm]; exact List.mem_cons_self t ts)
    · exact Or.inr (List.mem_cons_of_mem t h)

theorem foldl_max_ge_init : ∀ (ts : List Int) (a : Int), a ≤ List.foldl max a ts := by
  intro ts
  induction ts with
  | nil => intro a; exact le_refl a
  | cons t ts ih =>
    intro a
    exact le_trans (le_max_left a t) (ih (max a t))

theorem foldl_max_ge_mem :
    ∀ (ts : List Int) (a x : Int), x ∈ ts → x ≤ List.foldl max a ts := by
  intro ts
  induction ts with
  | nil => intro a x hx; exact absurd hx (List.not_mem_nil x)
  | cons t ts ih =>
    intro a x hx
    rcases List.mem_cons.1 hx with hx | hx
    · subst hx
      exact le_trans (le_max_right a x) (foldl_max_ge_init ts (max a x))
    · exact ih (max a t) x hx

theorem foldl_max_mem :
    ∀ (ts : List Int) (a : Int), List.foldl max a ts = a ∨ List.foldl max a ts ∈ ts := by
  intro ts
  induction ts with
  | nil => intro a; exact Or.inl rfl
  | cons t ts ih =>
    intro a
    rcases ih (max a t) with h | h
    · rcases max_choice a t with hm | hm
      · exact Or.inl (by rw [List.foldl_cons, h, hm])
      · exact Or.inr (by rw [List.foldl_cons, h, hm]; exact List.mem_cons_self t ts)
    · exact Or.inr (List.mem_cons_of_mem t h)

/-- With a strictly positive stored `FirstSeen`, the zero-sentinel test in
`observe` is never triggered and one step is exactly (min, max). -/
theorem observe_pos (f l t : Int) (hf : 0 < f) :
    observe ⟨f, l⟩ t = ⟨min f t, max l t⟩ := by
  have hf0 : ¬(f = 0) := ne_of_gt hf
  unfold observe
  by_cases ht : t < f
  · rw [if_pos (Or.inr ht)]
    by_cases hl : t > l
    · rw [if_pos hl, min_eq_right (le_of_lt ht), max_eq_right (le_of_lt hl)]
    · rw [if_neg hl, min_eq_right (le_of_lt ht), max_eq_left (le_of_not_lt hl)]
  · have hcond : ¬(f = 0 ∨ t < f) := by
      intro h
      rcases h with h | h
      · exact hf0 h
      · exact ht h
    rw [if_neg hcond]
    by_cases hl : t > l
    · rw [if_pos hl, min_eq_left (le_of_not_lt ht), max_eq_right (le_of_lt hl)]
    · rw [if_neg hl, min_eq_left (le_of_not_lt ht), max_eq_left (le_of_not_lt hl)]

/-- Closed form of the aggregation fold over strictly positive timestamps,
from any reachable state with a strictly positive `FirstSeen`. -/
theorem foldl_observe_pos :
    ∀ (ts : List Int) (f l : Int), 0 < f → (∀ x ∈ ts, 0 < x) →
      List.foldl observe ⟨f, l⟩ ts = ⟨List.foldl min f ts, List.foldl max l ts⟩ := by
  intro ts
  induction ts with
  | nil => intro f l _ _; rfl
  | cons t ts ih =>
    intro f l hf hpos
    have ht : 0 < t := hpos t (List.mem_cons_self t ts)
    simp only [List.foldl_cons]
    rw [observe_pos f l t hf,
      ih (min f t) (max l t) (lt_min hf ht) (fun x hx => hpos x (List.mem_cons_of_mem t hx))]

/-- The first observation on an absent key, at a strictly positive
timestamp, yields `{t, t}`. -/
theorem observe_first_pos (t : Int) (ht : 0 < t) : observe ⟨0, 0⟩ t = ⟨t, t⟩ := by
  unfold observe
  rw [if_pos (Or.inl rfl)]
  simp only [if_pos ht]

/-- Characterization used by C2: over a non-empty, strictly positive
sequence of timestamps the final record is exactly (minimum, maximum) of
the sequence — stated order-independently as membership plus bounds. -/
theorem aggregate_minmax_charact (l : List Int) (hne : l ≠ []) (hpos : ∀ x ∈ l, 0 < x) :
    (List.foldl observe ⟨0, 0⟩ l).FirstSeen ∈ l
    ∧ (∀ x ∈ l, (List.foldl observe ⟨0, 0⟩ l).FirstSeen ≤ x)
    ∧ (List.foldl observe ⟨0, 0⟩ l).LastSeen ∈ l
    ∧ (∀ x ∈ l, x ≤ (List.foldl observe ⟨0, 0⟩ l).LastSeen) := by
  cases l with
  | nil => exact absurd rfl hne
  | cons t ts =>
    have ht : 0 < t := hpos t (List.mem_cons_self t ts)
    have hpos' : ∀ x ∈ ts, 0 < x := fun x hx => hpos x (List.mem_cons_of_mem t hx)
    have hfold : List.foldl observe ⟨0, 0⟩ (t :: ts)
        = ⟨List.foldl min t ts, List.foldl max t ts⟩ := by
      rw [List.foldl_cons, observe_first_pos t ht, foldl_observe_pos ts t t ht hpos']
    rw [hfold]
    refine ⟨?_, ?_, ?_, ?_⟩
    · rcases foldl_min_mem ts t with h | h
      · rw [h]; exact List.mem_cons_self t ts
      · exact List.mem_cons_of_mem t h
    · intro x hx
      rcases List.mem_cons.1 hx with hx | hx
      · subst hx; exact foldl_min_le_init ts x
      · exact foldl_min_le_mem ts t x hx
    · rcases foldl_max_mem ts t with h | h
      · rw [h]; exact List.mem_cons_self t ts
      · exact List.mem_cons_of_mem t h
    · intro x hx
      rcases List.mem_cons.1 hx with hx | hx
      · subst hx; exact foldl_max_ge_init ts x
      · exact foldl_max_ge_mem ts t x hx

/-! ## Lemmas about the persistence merge -/

theorem mergeStore_cons (S : Store) (k : List Char) (v : domainTimes)
    (A : List (List Char × domainTimes)) :
    mergeStore S ((k, v) :: A) = mergeStore (upsert S k v) A := rfl

theorem upsert_apply_ne (S : Store) (k : List Char) (v : domainTimes)
    (k' : List Char) (h : k' ≠ k) : upsert S k v k' = S k' := by
  unfold upsert
  rw [if_neg h]

theorem upsert_apply_self (S : Store) (k : List Char) (v : domainTimes) :
    upsert S k v k = some ((S k).elim v (fun c => combineRec c v)) := by
  unfold upsert
  rw [if_pos rfl]
  cases S k <;> rfl

theorem mergeStore_apply_notMem :
    ∀ (A : List (List Char × domainTimes)) (S : Store) (k : List Char),
      k ∉ A.map Prod.fst → mergeStore S A k = S k := by
  intro A
  induction A with
  | nil => intro S k _; rfl
  | cons p A' ih =>
    intro S k hk
    cases p with
    | mk k0 v0 =>
      simp only [List.map_cons, List.mem_cons, not_or] at hk
      rw [mergeStore_cons, ih (upsert S k0 v0) k hk.2]
      exact upsert_apply_ne S k0 v0 k hk.1

theorem mergeStore_apply_mem :
    ∀ (A : List (List Char × domainTimes)) (S : Store) (k : List Char) (v : domainTimes),
      (A.map Prod.fst).Nodup → (k, v) ∈ A →
      mergeStore S A k = some ((S k).elim v (fun c => combineRec c v)) := by
  intro A
  induction A with
  | nil => intro S k v _ hm; exact absurd hm (List.not_mem_nil _)
  | cons p A' ih =>
    intro S k v hnd hm
    cases p with
    | mk k0 v0 =>
      simp only [List.map_cons, List.nodup_cons] at hnd
      rcases List.mem_cons.1 hm with he | hm'
      · have hk : k = k0 := congrArg Prod.fst he
        have hv : v = v0 := congrArg Prod.snd he
        subst hk
        subst hv
        rw [mergeStore_cons,
          mergeStore_apply_notMem A' (upsert S k v) k hnd.1]
        exact upsert_apply_self S k v
      · have hkk0 : k ≠ k0 := by
          intro he'
          subst he'
          exact hnd.1 (List.mem_map.2 ⟨(k, v), hm', rfl⟩)
        rw [mergeStore_cons, ih (upsert S k0 v0) k v hnd.2 hm',
          upsert_apply_ne S k0 v0 k hkk0]

theorem exists_val_of_mem_keys {A : List (List Char × domainTimes)} {k : List Char}
    (h : k ∈ A.map Prod.fst) : ∃ v, (k, v) ∈ A := by
  obtain ⟨p, hp, hpk⟩ := List.mem_map.1 h
  exact ⟨p.2, by rw [← hpk]; exact hp⟩

/-- C3: for every key present in the run's Aggregate the merged store holds
`min` of the existing firstSeen (or the new value when absent) and `max`
of the existing lastSeen likewise; keys not in the Aggregate are
untouched, and no existing key is ever deleted. -/
theorem mergeStore_per_key_contract (S : Store) (A : List (List Char × domainTimes))
    (hnd : (A.map Prod.fst).Nodup) (k : List Char) (v : domainTimes)
    (hkv : (k, v) ∈ A) :
    mergeStore S A k
      = some ⟨(S k).elim v.FirstSeen (fun c => min c.FirstSeen v.FirstSeen),
              (S k).elim v.LastSeen (fun c => max c.LastSeen v.LastSeen)⟩
    ∧ (∀ k', k' ∉ A.map Prod.fst → mergeStore S A k' = S k')
    ∧ (∀ k' r, S k' = some r → ∃ r', mergeStore S A k' = some r') := by
  refine ⟨?_, ?_, ?_⟩
  · rw [mergeStore_apply_mem A S k v hnd hkv]
    cases S k <;> rfl
  · exact fun k' h => mergeStore_apply_notMem A S k' h
  · intro k' r hr
    by_cases hk' : k' ∈ A.map Prod.fst
    · obtain ⟨v', hv'⟩ := exists_val_of_mem_keys hk'
      exact ⟨_, mergeStore_apply_mem A S k' v' hnd hv'⟩
    · exact ⟨r, by rw [mergeStore_apply_notMem A S k' hk']; exact hr⟩

theorem mergeStore_per_key_contract_witness :
    mergeStore (fun k => if k = "a".toList then some ⟨5, 10⟩ else none)
        [("a".toList, ⟨3, 7⟩)] "a".toList = some ⟨3, 10⟩ := by
  have h := (mergeStore_per_key_contract
      (fun k => if k = "a".toList then some (⟨5, 10⟩ : domainTimes) else none)
      [("a".toList, ⟨3, 7⟩)] (by decide) "a".toList ⟨3, 7⟩ (by decide)).1
  exact h.trans (by decide)

/-- C4: merging the same Aggregate twice equals merging it once, and
merging Aggregates A then B equals merging B then A. -/
theorem mergeStore_idempotent_commutative (S : Store)
    (A B : List (List Char × domainTimes))
    (hA : (A.map Prod.fst).Nodup) (hB : (B.map Prod.fst).Nodup) :
    mergeStore (mergeStore S A) A = mergeStore S A
    ∧ mergeStore (mergeStore S A) B = mergeStore (mergeStore S B) A := by
  constructor
  · funext k
    by_cases hk : k ∈ A.map Prod.fst
    · obtain ⟨v, hv⟩ := exists_val_of_mem_keys hk
      rw [mergeStore_apply_mem A (mergeStore S A) k v hA hv,
        mergeStore_apply_mem A S k v hA hv]
      cases S k with
      | none =>
        simp only [Option.elim]
        unfold combineRec
        rw [min_self, max_self]
      | some c =>
        simp only [Option.elim]
        unfold combineRec
        rw [min_assoc, min_self, max_assoc, max_self]
    · rw [mergeStore_apply_notMem A (mergeStore S A) k hk]
  · funext k
    by_cases hkA : k ∈ A.map Prod.fst <;> by_cases hkB : k ∈ B.map Prod.fst
    · obtain ⟨vA, hvA⟩ := exists_val_of_mem_keys hkA
      obtain ⟨vB, hvB⟩ := exists_val_of_mem_keys hkB
      rw [mergeStore_apply_mem B (mergeStore S A) k vB hB hvB,
        mergeStore_apply_mem A (mergeStore S B) k vA hA hvA,
        mergeStore_apply_mem A S k vA hA hvA,
        mergeStore_apply_mem B S k vB hB hvB]
      cases S k with
      | none =>
        simp only [Option.elim]
        unfold combineRec
        rw [min_comm vA.FirstSeen vB.FirstSeen, max_comm vA.LastSeen vB.LastSeen]
      | some c =>
        simp only [Option.elim]
        unfold combineRec
        dsimp only
        rw [min_right_comm, max_assoc, max_comm vA.LastSeen vB.LastSeen, ← max_assoc]
    · obtain ⟨vA, hvA⟩ := exists_val_of_mem_keys hkA
      rw [mergeStore_apply_notMem B (mergeStore S A) k hkB,
        mergeStore_apply_mem A (mergeStore S B) k vA hA hvA,
        mergeStore_apply_mem A S k vA hA hvA,
        mergeStore_apply_notMem B S k hkB]
    · obtain ⟨vB, hvB⟩ := exists_val_of_mem_keys hkB
      rw [mergeStore_apply_mem B (mergeStore S A) k vB hB hvB,
        mergeStore_apply_notMem A (mergeStore S B) k hkA,
        mergeStore_apply_notMem A S k hkA,
        mergeStore_apply_mem B S k vB hB hvB]
    · rw [mergeStore_apply_notMem B (mergeStore S A) k hkB,
        mergeStore_apply_notMem A (mergeStore S B) k hkA,
        mergeStore_apply_notMem A S k hkA,
        mergeStore_apply_notMem B S k hkB]

theorem mergeStore_idempotent_commutative_witness :
    mergeStore (mergeStore (fun _ => none) [("a".toList, ⟨1, 5⟩)]) [("a".toList, ⟨1, 5⟩)]
        = mergeStore (fun _ => none) [("a".toList, ⟨1, 5⟩)]
    ∧ mergeStore (mergeStore (fun _ => none) [("a".toList, ⟨1, 5⟩)])
          [("a".toList, ⟨0, 9⟩), ("b".toList, ⟨2, 2⟩)]
        = mergeStore (mergeStore (fun _ => none) [("a".toList, ⟨0, 9⟩), ("b".toList, ⟨2, 2⟩)])
          [("a".toList, ⟨1, 5⟩)] :=
  mergeStore_idempotent_commutative (fun _ => none)
    [("a".toList, ⟨1, 5⟩)] [("a".toList, ⟨0, 9⟩), ("b".toList, ⟨2, 2⟩)]
    (by decide) (by decide)

theorem runUpserts_eq_merge (fail : List Char → domainTimes → Bool) :
    ∀ (A : List (List Char × domainTimes)) (cur T : Store),
      runUpserts fail cur A = some T → T = mergeStore cur A := by
  intro A
  induction A with
  | nil =>
    intro cur T h
    cases h
    rfl
  | cons p A' ih =>
    intro cur T h
    cases p with
    | mk k v =>
      unfold runUpserts at h
      by_cases hf : fail k v
      · rw [if_pos hf] at h
        exact Option.noConfusion h
      · rw [if_neg hf] at h
        rw [mergeStore_cons]
        exact ih (upsert cur k v) T h

/-- C5: the merge transaction is all-or-nothing — when
`saveDomainsToDatabase` reports failure (a statement error anywhere in the
loop, or a commit error) the durable state is exactly the pre-merge state;
when it reports success the durable state is the full reconciliation of
the Aggregate. -/
theorem saveDomainsToDatabase_all_or_nothing (fail : List Char → domainTimes → Bool)
    (commitFail : Bool) (S : Store) (A : List (List Char × domainTimes)) :
    ((saveDomainsToDatabase fail commitFail S A).2 = false →
      (saveDomainsToDatabase fail commitFail S A).1 = S)
    ∧ ((saveDomainsToDatabase fail commitFail S A).2 = true →
      (saveDomainsToDatabase fail commitFail S A).1 = mergeStore S A) := by
  unfold saveDomainsToDatabase
  cases hr : runUpserts fail S A with
  | none => exact ⟨fun _ => rfl, fun h => Bool.noConfusion h⟩
  | some T =>
    cases commitFail with
    | true => exact ⟨fun _ => rfl, fun h => Bool.noConfusion h⟩
    | false =>
      exact ⟨fun h => Bool.noConfusion h,
        fun _ => runUpserts_eq_merge fail A S T hr⟩

theorem saveDomainsToDatabase_all_or_nothing_witness :
    (saveDomainsToDatabase (fun k _ => k == "b".toList) false (fun _ => none)
        [("a".toList, ⟨1, 2⟩), ("b".toList, ⟨3, 4⟩)]).1 = (fun _ => none)
    ∧ (saveDomainsToDatabase (fun _ _ => false) false (fun _ => none)
        [("a".toList, ⟨1, 2⟩)]).1
      = mergeStore (fun _ => none) [("a".toList, ⟨1, 2⟩)] :=
  ⟨(saveDomainsToDatabase_all_or_nothing (fun k _ => k == "b".toList) false
      (fun _ => none) [("a".toList, ⟨1, 2⟩), ("b".toList, ⟨3, 4⟩)]).1 (by decide),
   (saveDomainsToDatabase_all_or_nothing (fun _ _ => false) false
      (fun _ => none) [("a".toList, ⟨1, 2⟩)]).2 (by decide)⟩

theorem domainTimes_ext (a b : domainTimes)
    (h1 : a.FirstSeen = b.FirstSeen) (h2 : a.LastSeen = b.LastSeen) : a = b := by
  cases a
  cases b
  cases h1
  cases h2
  rfl

/-- C2 (amended): over every non-empty sequence of strictly positive
timestamps, the final record for an initially absent key is exactly
(minimum, maximum) of the sequence — stated as membership plus bounds,
which determines the record independently of arrival order — and any
reordering of the sequence folds to the same record.  (The restriction to
strictly positive timestamps is forced by the zero-sentinel counterexample
below; the source comparisons use `FirstSeen == 0` and `timestamp >
LastSeen` against zero-initialized fields.) -/
theorem aggregate_minmax_of_positive (l : List Int) (hne : l ≠ [])
    (hpos : ∀ x ∈ l, 0 < x) :
    ((List.foldl observe ⟨0, 0⟩ l).FirstSeen ∈ l
      ∧ (∀ x ∈ l, (List.foldl observe ⟨0, 0⟩ l).FirstSeen ≤ x)
      ∧ (List.foldl observe ⟨0, 0⟩ l).LastSeen ∈ l
      ∧ (∀ x ∈ l, x ≤ (List.foldl observe ⟨0, 0⟩ l).LastSeen))
    ∧ (∀ l', l.Perm l' →
        List.foldl observe ⟨0, 0⟩ l' = List.foldl observe ⟨0, 0⟩ l) := by
  refine ⟨aggregate_minmax_charact l hne hpos, ?_⟩
  intro l' hperm
  have hne' : l' ≠ [] := by
    intro h
    subst h
    exact hne hperm.eq_nil
  have hpos' : ∀ x ∈ l', 0 < x := fun x hx => hpos x (hperm.mem_iff.2 hx)
  obtain ⟨hm1, hb1, hm2, hb2⟩ := aggregate_minmax_charact l hne hpos
  obtain ⟨hm1', hb1', hm2', hb2'⟩ := aggregate_minmax_charact l' hne' hpos'
  refine domainTimes_ext _ _ ?_ ?_
  · exact le_antisymm (hb1' _ (hperm.mem_iff.1 hm1)) (hb1 _ (hperm.mem_iff.2 hm1'))
  · exact le_antisymm (hb2 _ (hperm.mem_iff.2 hm2')) (hb2' _ (hperm.mem_iff.1 hm2))

theorem aggregate_minmax_of_positive_witness :
    List.foldl observe ⟨0, 0⟩ [(2 : Int), 1, 3] = ⟨1, 3⟩ := by
  have h := aggregate_minmax_of_positive [3, 1, 2] (by decide) (by decide)
  exact (h.2 [2, 1, 3] (by decide)).trans (by decide)

/-- C2 counterexample: a single observation of an absent key at timestamp
`-5` produces `{firstSeen := -5, lastSeen := 0}`, not `{-5, -5}` — the
final record is not (min, max) of the observed timestamps, because the
`timestamp > LastSeen` update never fires against the zero-initialized
`LastSeen`. -/
theorem observe_single_negative_not_minmax :
    List.foldl observe ⟨0, 0⟩ [(-5 : Int)] = ⟨-5, 0⟩
    ∧ List.foldl observe ⟨0, 0⟩ [(-5 : Int)] ≠ ⟨-5, -5⟩ := by
  refine ⟨by decide, by decide⟩

/-- C9: the aggregator treats 0 as an "unset" sentinel asymmetrically —
`FirstSeen` is overwritten iff it is 0 or the new timestamp is smaller,
`LastSeen` iff the new timestamp is strictly greater; an absent key
observed once at a negative timestamp ends as `{t, 0}`, and an
observation at epoch zero followed by a positive one loses the zero
(`FirstSeen` becomes the later timestamp). -/
theorem observe_zero_sentinel_semantics :
    (∀ (cur : domainTimes) (t : Int),
      observe cur t =
        ⟨if cur.FirstSeen = 0 ∨ t < cur.FirstSeen then t else cur.FirstSeen,
         if t > cur.LastSeen then t else cur.LastSeen⟩)
    ∧ (∀ t : Int, t < 0 → List.foldl observe ⟨0, 0⟩ [t] = ⟨t, 0⟩)
    ∧ (∀ t : Int, 0 < t →
        (List.foldl observe ⟨0, 0⟩ [0, t]).FirstSeen = t
        ∧ List.foldl observe ⟨0, 0⟩ [0, t] = ⟨t, t⟩) := by
  refine ⟨?_, ?_, ?_⟩
  · intro cur t
    cases cur with
    | mk f l =>
      unfold observe
      dsimp only
      by_cases h1 : f = 0 ∨ t < f <;> by_cases h2 : t > l <;> simp [h1, h2]
  · intro t ht
    simp only [List.foldl_cons, List.foldl_nil]
    unfold observe
    dsimp only
    rw [if_pos (Or.inl rfl), if_neg (not_lt.2 (le_of_lt ht))]
  · intro t ht
    have h0 : observe ⟨0, 0⟩ (0 : Int) = ⟨0, 0⟩ := by
      unfold observe
      dsimp only
      rw [if_pos (Or.inl rfl), if_neg (lt_irrefl 0)]
    have hfold : List.foldl observe ⟨0, 0⟩ [0, t] = ⟨t, t⟩ := by
      simp only [List.foldl_cons, List.foldl_nil, h0]
      exact observe_first_pos t ht
    exact ⟨by rw [hfold], hfold⟩

theorem observe_zero_sentinel_semantics_witness :
    List.foldl observe ⟨0, 0⟩ [(-7 : Int)] = ⟨-7, 0⟩
    ∧ List.foldl observe ⟨0, 0⟩ [(0 : Int), 5] = ⟨5, 5⟩ :=
  ⟨observe_zero_sentinel_semantics.2.1 (-7) (by decide),
   (observe_zero_sentinel_semantics.2.2 5 (by decide)).2⟩

theorem observe_preserves_le (cur : domainTimes) (t : Int)
    (h : cur.FirstSeen ≤ cur.LastSeen) :
    (observe cur t).FirstSeen ≤ (observe cur t).LastSeen := by
  cases cur with
  | mk f l =>
    unfold observe
    dsimp only
    dsimp only at h
    by_cases h1 : f = 0 ∨ t < f <;> by_cases h2 : t > l <;> simp [h1, h2] <;> omega

theorem foldl_observe_preserves_le (ts : List Int) :
    ∀ cur : domainTimes, cur.FirstSeen ≤ cur.LastSeen →
      (List.foldl observe cur ts).FirstSeen ≤ (List.foldl observe cur ts).LastSeen := by
  induction ts with
  | nil => intro cur h; exact h
  | cons t ts ih =>
    intro cur h
    simp only [List.foldl_cons]
    exact ih (observe cur t) (observe_preserves_le cur t h)

theorem upsert_preserves_le (S : Store) (k : List Char) (v : domainTimes)
    (hS : ∀ k' r, S k' = some r → r.FirstSeen ≤ r.LastSeen)
    (hv : v.FirstSeen ≤ v.LastSeen) :
    ∀ k' r, upsert S k v k' = some r → r.FirstSeen ≤ r.LastSeen := by
  intro k' r h
  unfold upsert at h
  by_cases hk : k' = k
  · rw [if_pos hk] at h
    cases hsk : S k with
    | none =>
      rw [hsk] at h
      injection h with h'
      rw [← h']
      exact hv
    | some c =>
      rw [hsk] at h
      injection h with h'
      rw [← h']
      have hc := hS k c hsk
      unfold combineRec
      dsimp only
      exact le_trans (min_le_left _ _) (le_trans hc (le_max_left _ _))
  · rw [if_neg hk] at h
    exact hS k' r h

theorem mergeStore_preserves_le :
    ∀ (A : List (List Char × domainTimes)) (S : Store),
      (∀ k r, S k = some r → r.FirstSeen ≤ r.LastSeen) →
      (∀ p ∈ A, p.2.FirstSeen ≤ p.2.LastSeen) →
      ∀ k r, mergeStore S A k = some r → r.FirstSeen ≤ r.LastSeen := by
  intro A
  induction A with
  | nil => intro S hS _; exact hS
  | cons p A' ih =>
    intro S hS hA
    cases p with
    | mk k0 v0 =>
      rw [mergeStore_cons]
      exact ih (upsert S k0 v0)
        (upsert_preserves_le S k0 v0 hS (hA (k0, v0) (List.mem_cons_self _ _)))
        (fun q hq => hA q (List.mem_cons_of_mem _ hq))

/-- C8: `firstSeen ≤ lastSeen` holds for every materialized record — the
aggregation fold from the zero-initialized state keeps it for any sequence
of timestamps (zero and negative included), and merging an Aggregate of
valid records into a store of valid records yields a store of valid
records. -/
theorem firstSeen_le_lastSeen_preserved (ts : List Int) (S : Store)
    (A : List (List Char × domainTimes))
    (hS : ∀ k r, S k = some r → r.FirstSeen ≤ r.LastSeen)
    (hA : ∀ p ∈ A, p.2.FirstSeen ≤ p.2.LastSeen) :
    (List.foldl observe ⟨0, 0⟩ ts).FirstSeen ≤ (List.foldl observe ⟨0, 0⟩ ts).LastSeen
    ∧ ∀ k r, mergeStore S A k = some r → r.FirstSeen ≤ r.LastSeen :=
  ⟨foldl_observe_preserves_le ts ⟨0, 0⟩ (le_refl 0),
   mergeStore_preserves_le A S hS hA⟩

theorem firstSeen_le_lastSeen_preserved_witness :
    (List.foldl observe ⟨0, 0⟩ [(2 : Int), -3]).FirstSeen
      ≤ (List.foldl observe ⟨0, 0⟩ [(2 : Int), -3]).LastSeen :=
  (firstSeen_le_lastSeen_preserved [2, -3] (fun _ => none) [("a".toList, ⟨1, 2⟩)]
    (fun _ _ h => Option.noConfusion h) (by decide)).1

/-! ## Lemmas about the marker search and the no-match conditions -/

theorem findQueryDomain_eq_none_iff :
    ∀ l : List (List Char),
      findQueryDomain l = none ↔
        ∀ pre p q suf, l = pre ++ p :: q :: suf → isPrefixQuery p = false := by
  intro l
  induction l with
  | nil =>
    constructor
    · intro _ pre p q suf h
      have hlen := congrArg List.length h
      simp at hlen
      omega
    · intro _; rfl
  | cons p0 tail ih =>
    cases tail with
    | nil =>
      constructor
      · intro _ pre p q suf h
        have hlen := congrArg List.length h
        simp at hlen
        omega
      · intro _; rfl
    | cons q0 rest =>
      by_cases hp : isPrefixQuery p0 = true
      · rw [show findQueryDomain (p0 :: q0 :: rest) = some q0 from by
          simp [findQueryDomain, hp]]
        constructor
        · intro h
          exact absurd h (by simp)
        · intro h
          have hf := h [] p0 q0 rest rfl
          rw [hf] at hp
          exact absurd hp (by simp)
      · rw [show findQueryDomain (p0 :: q0 :: rest) = findQueryDomain (q0 :: rest) from by
          simp [findQueryDomain, hp]]
        rw [ih]
        constructor
        · intro h pre p q suf heq
          cases pre with
          | nil =>
            injection heq with h1 h2
            rw [← h1]
            exact Bool.not_eq_true _ ▸ hp
          | cons a pre' =>
            injection heq with h1 h2
            exact h pre' p q suf h2
        · intro h pre p q suf heq
          exact h (p0 :: pre) p q suf (by rw [heq]; rfl)

theorem mem_dropLast_of_succ {α : Type} :
    ∀ (pre : List α) (p q : α) (suf : List α), p ∈ (pre ++ p :: q :: suf).dropLast := by
  intro pre
  induction pre with
  | nil =>
    intro p q suf
    rw [List.nil_append, List.dropLast_cons₂]
    exact List.mem_cons_self _ _
  | cons a pre' ih =>
    intro p q suf
    have hstep : ((a :: pre') ++ p :: q :: suf).dropLast
        = a :: (pre' ++ p :: q :: suf).dropLast := by
      rw [List.cons_append]
      cases hpre : pre' ++ p :: q :: suf with
      | nil => exact absurd hpre (by simp)
      | cons x xs =>
        cases xs with
        | nil =>
          have hlen := congrArg List.length hpre
          simp at hlen
          omega
        | cons y ys => rw [List.dropLast_cons₂]
    rw [hstep]
    exact List.mem_cons_of_mem a (ih p q suf)

/-- C6 (amended): a line yields "no match" exactly when it is shorter than
15 characters, or its leading 15 characters fail to parse under the
`Mon _2 15:04:05` layout, or no `query[`-prefixed token **followed by a
further token** occurs among the whitespace-delimited fields of the
remainder (the follower requirement, absent from the original claim, is
forced by the counterexample below); and a no-match line leaves the
aggregate unchanged. -/
theorem extract_none_iff_characterization (line : List Char) :
    (extractDomainAndTimestamp line = none ↔
      (line.length < 15 ∨ parseGoTime15 (line.take 15) = none ∨
        ∀ pre p q suf, goFields (line.drop 15) = pre ++ p :: q :: suf →
          isPrefixQuery p = false))
    ∧ ∀ m : Agg, extractDomainAndTimestamp line = none → processLine m line = m := by
  constructor
  · by_cases h15 : line.length < 15
    · simp [extractDomainAndTimestamp, h15]
    · cases hp : parseGoTime15 (line.take 15) with
      | none => simp [extractDomainAndTimestamp, h15, hp]
      | some t =>
        cases hf : findQueryDomain (goFields (line.drop 15)) with
        | none =>
          simp only [extractDomainAndTimestamp, if_neg h15, hp, hf]
          constructor
          · intro _
            exact Or.inr (Or.inr ((findQueryDomain_eq_none_iff _).1 hf))
          · intro _
            trivial
        | some d =>
          simp only [extractDomainAndTimestamp, if_neg h15, hp, hf]
          constructor
          · intro h
            exact absurd h (by simp)
          · intro h
            rcases h with h | h | h
            · exact absurd h h15
            · exact absurd h (by simp)
            · have hn := (findQueryDomain_eq_none_iff _).2 h
              exact absurd hf (by simp [hn])
  · intro m h
    simp [processLine, h]

theorem extract_none_iff_characterization_witness :
    processLine (fun _ => none) "x".toList = (fun _ => none) :=
  (extract_none_iff_characterization "x".toList).2 (fun _ => none) (by decide)

/-- C6 counterexample: the 24-character line `Mar  3 10:15:02 query[A]`
is not short, its timestamp parses, and a `query[`-prefixed token occurs
among the whitespace-delimited fields of the remainder — none of the
claim's three no-match conditions holds — yet the parser signals no
match, because the marker is the last token and no domain token follows
it. -/
theorem extract_none_despite_marker :
    extractDomainAndTimestamp "Mar  3 10:15:02 query[A]".toList = none
    ∧ ¬("Mar  3 10:15:02 query[A]".toList.length < 15)
    ∧ parseGoTime15 ("Mar  3 10:15:02 query[A]".toList.take 15) ≠ none
    ∧ "query[A]".toList ∈ goFields ("Mar  3 10:15:02 query[A]".toList.drop 15)
    ∧ isPrefixQuery "query[A]".toList = true := by
  refine ⟨by decide, by decide, by decide, by decide, by decide⟩

/-- C10: when the last whitespace-delimited token of the remainder is the
first `query[`-prefixed token (the marker is present but nothing follows
it), the parser returns "no match". -/
theorem trailing_marker_yields_no_match (line : List Char) (p : List Char)
    (_hlast : (goFields (line.drop 15)).getLast? = some p)
    (_hp : isPrefixQuery p = true)
    (hfirst : ∀ q ∈ (goFields (line.drop 15)).dropLast, isPrefixQuery q = false) :
    extractDomainAndTimestamp line = none := by
  unfold extractDomainAndTimestamp
  by_cases h15 : line.length < 15
  · rw [if_pos h15]
  · rw [if_neg h15]
    cases hpt : parseGoTime15 (line.take 15) with
    | none => rfl
    | some t =>
      have hnone : findQueryDomain (goFields (line.drop 15)) = none := by
        rw [findQueryDomain_eq_none_iff]
        intro pre p' q suf heq
        apply hfirst
        rw [heq]
        exact mem_dropLast_of_succ pre p' q suf
      rw [hnone]

theorem trailing_marker_yields_no_match_witness :
    extractDomainAndTimestamp "Mar  3 10:15:02 foo query[A]".toList = none :=
  trailing_marker_yields_no_match "Mar  3 10:15:02 foo query[A]".toList
    "query[A]".toList (by decide) (by decide) (by decide)

/-- C1 (code bug): on the spec's end-to-end example line the extraction
succeeds with domain `www.Example.com` and DomainKey `com.Example.www`,
but the returned timestamp is `-62161825498`, which is Mar 3 10:15:02 UTC
of year 0 — Go's `time.Parse` fills in year 0 for a layout carrying no
year — not Mar 3 10:15:02 of the current year at parse time (any year
from 1970 on would give a non-negative epoch value). -/
theorem extractDomainAndTimestamp_example_year_zero :
    extractDomainAndTimestamp
        "Mar  3 10:15:02 dnsmasq: query[A] www.Example.com from 127.0.0.1".toList
      = some ("www.Example.com".toList, -62161825498)
    ∧ reverseDomainParts "www.Example.com".toList = "com.Example.www".toList
    ∧ parseGoTime15 "Mar  3 10:15:02".toList = some ⟨3, 3, 10, 15, 2⟩
    ∧ goTimeUnix ⟨3, 3, 10, 15, 2⟩ = -62161825498
    ∧ (-62161825498 : Int) < 0 := by
  refine ⟨by decide, by decide, by decide, by decide, by decide⟩

end DnsParse
